import Mathlib

/-!
Verification development for the log-analyzer pipeline in `src/main.py`.

Modelling conventions:
- Python strings are modelled as `List Char`; Python numbers as `ℚ`.
- Python dicts are modelled as insertion-ordered association lists; dict
  insertion appends at the end, as CPython preserves insertion order.
- Raised Python exceptions are modelled with `Except PyErr`; `PyErr.valueError`
  is the `ValueError` (InvalidArgument) kind, `PyErr.typeError` a `TypeError`,
  `PyErr.runtimeError` a `RuntimeError`.
- `round(x, 3)` is modelled by `round3`, rounding half to even as Python does
  (on exact rationals rather than binary floats).
-/

/-- Error kinds raised by the program, one per Python exception class used.
`overflowError` is raised by the C-level argument conversion of
`datetime.date` when a component does not fit a C `int`. -/
inductive PyErr where
  | valueError
  | typeError
  | runtimeError
  | fileNotFound
  | overflowError
  deriving DecidableEq, Repr

instance {ε α : Type} [DecidableEq ε] [DecidableEq α] :
    DecidableEq (Except ε α) := fun x y =>
  match x, y with
  | .ok a, .ok b =>
      if h : a = b then .isTrue (h ▸ rfl)
      else .isFalse fun he => h (Except.ok.inj he)
  | .error a, .error b =>
      if h : a = b then .isTrue (h ▸ rfl)
      else .isFalse fun he => h (Except.error.inj he)
  | .ok _, .error _ => .isFalse fun he => Except.noConfusion he
  | .error _, .ok _ => .isFalse fun he => Except.noConfusion he

/-- Endpoint keys: `log_entry.get("url")`, which is `None` when the field is
missing, so a key is an optional string. -/
abbrev Key := Option (List Char)

/-- Association-list lookup, first matching key wins (dict access). -/
def lookupA {α : Type} (k : Key) : List (Key × α) → Option α
  | [] => none
  | (k', v) :: t => if k = k' then some v else lookupA k t

/-- Association-list update of the first entry holding key `k` (dict item
assignment for a key already present). -/
def updateA {α : Type} (k : Key) (v : α) : List (Key × α) → List (Key × α)
  | [] => []
  | (k', v') :: t => if k = k' then (k', v) :: t else (k', v') :: updateA k v t

/-- Round a rational to the nearest integer, halves to even: Python `round`. -/
def pyRoundInt (q : ℚ) : ℤ :=
  if q - ⌊q⌋ < 1/2 then ⌊q⌋
  else if 1/2 < q - ⌊q⌋ then ⌊q⌋ + 1
  else if ⌊q⌋ % 2 = 0 then ⌊q⌋ else ⌊q⌋ + 1

/-- Python `round(q, 3)`. -/
def round3 (q : ℚ) : ℚ := ((pyRoundInt (q * 1000) : ℤ) : ℚ) / 1000

/-- Does `pat` match at the head of `s`? -/
def leadsWith : List Char → List Char → Bool
  | [], _ => true
  | _ :: _, [] => false
  | a :: ps, b :: ss => a == b && leadsWith ps ss

/-- Python substring test `pat in s`: `pat` occurs contiguously in `s`. -/
def hasSub (pat : List Char) : List Char → Bool
  | [] => pat.isEmpty
  | b :: ss => leadsWith pat (b :: ss) || hasSub pat ss

/-- Helper for `splitDash`: `cur` is the reversed chunk read so far. -/
def splitDashAux : List Char → List Char → List (List Char)
  | cur, [] => [cur.reverse]
  | cur, c :: cs => if c = '-' then cur.reverse :: splitDashAux [] cs
                    else splitDashAux (c :: cur) cs

/-- Python `s.split("-")`. -/
def splitDash (s : List Char) : List (List Char) := splitDashAux [] s

/-- Numeric value of a decimal digit character, if it is one. -/
def digitVal (c : Char) : Option ℕ :=
  if 48 ≤ c.toNat ∧ c.toNat ≤ 57 then some (c.toNat - 48) else none

/-- Remaining digits of an integer literal after the first digit; a single
underscore is allowed between digits, as in Python. -/
def digitsCore : ℕ → List Char → Option ℕ
  | acc, [] => some acc
  | acc, c :: cs =>
      if c = '_' then
        match cs with
        | [] => none
        | c2 :: cs2 =>
            match digitVal c2 with
            | some d => digitsCore (10 * acc + d) cs2
            | none => none
      else
        match digitVal c with
        | some d => digitsCore (10 * acc + d) cs
        | none => none

/-- Parse a nonempty unsigned decimal digit sequence. -/
def parseDigits : List Char → Option ℕ
  | [] => none
  | c :: cs =>
      match digitVal c with
      | some d => digitsCore d cs
      | none => none

/-- ASCII whitespace stripped by Python `int(str)`. -/
def isPySpace (c : Char) : Bool :=
  c = ' ' || c = Char.ofNat 9 || c = Char.ofNat 10 || c = Char.ofNat 13 ||
  c = Char.ofNat 11 || c = Char.ofNat 12

/-- Strip leading and trailing whitespace. -/
def stripSpaces (s : List Char) : List Char :=
  ((s.dropWhile isPySpace).reverse.dropWhile isPySpace).reverse

/-- Python `int(str)`: optional surrounding whitespace, optional sign, then
decimal digits (single underscores between digits allowed); `none` models the
raised `ValueError`. -/
def pyInt? (s : List Char) : Option ℤ :=
  match stripSpaces s with
  | [] => none
  | c :: cs =>
      if c = '-' then (parseDigits cs).map (fun n => -(n : ℤ))
      else if c = '+' then (parseDigits cs).map (fun n => (n : ℤ))
      else (parseDigits (c :: cs)).map (fun n => (n : ℤ))

/-- Gregorian leap-year rule used by `datetime.date`. -/
def isLeap (y : ℤ) : Bool := y % 4 = 0 ∧ (y % 100 ≠ 0 ∨ y % 400 = 0)

/-- Number of days in a month, per `datetime.date`. -/
def daysInMonth (y m : ℤ) : ℤ :=
  if m = 2 then (if isLeap y then 29 else 28)
  else if m = 4 ∨ m = 6 ∨ m = 9 ∨ m = 11 then 30
  else 31

/-- Argument validity of the `datetime.date(y, m, d)` constructor, once the
components have passed C-`int` conversion. -/
def dateValid (y m d : ℤ) : Bool :=
  1 ≤ y ∧ y ≤ 9999 ∧ 1 ≤ m ∧ m ≤ 12 ∧ 1 ≤ d ∧ d ≤ daysInMonth y m

/-- Fits a C `int`: `datetime.date` converts each component with the C-`int`
converter before any range validation, raising `OverflowError` (not
`ValueError`) for a value outside this range. -/
def cIntFits (n : ℤ) : Bool := -2147483648 ≤ n ∧ n ≤ 2147483647

/-- Decimal digit character for a value below ten. -/
def digitChar (d : ℕ) : Char := Char.ofNat (48 + d)

/-- Four-digit zero-padded decimal rendering, for years up to 9999. -/
def pad4 (n : ℕ) : List Char :=
  [digitChar (n / 1000 % 10), digitChar (n / 100 % 10),
   digitChar (n / 10 % 10), digitChar (n % 10)]

/-- Two-digit zero-padded decimal rendering, for months and days. -/
def pad2 (n : ℕ) : List Char := [digitChar (n / 10 % 10), digitChar (n % 10)]

/-- Python `str(datetime.date(y, m, d))`, the ISO form `YYYY-MM-DD`. -/
def formatDate (y m d : ℕ) : List Char :=
  pad4 y ++ '-' :: pad2 m ++ '-' :: pad2 d

/-- Split a candidate date criterion on dashes and convert each part with
`int`, modelling `year, month, day = map(int, filter_value.split("-"))`;
`none` models the `ValueError` raised on wrong arity or a failed `int`. -/
def parse3 (s : List Char) : Option (ℤ × ℤ × ℤ) :=
  match splitDash s with
  | [a, b, c] =>
      match pyInt? a, pyInt? b, pyInt? c with
      | some y, some mo, some dy => some (y, mo, dy)
      | _, _, _ => none
  | _ => none

/-- Raw log record: the fields of one decoded log line that the core consumes.
Each field is optional, as `dict.get` yields `None` when absent. -/
structure Record where
  timestamp : Option (List Char)
  url : Option (List Char)
  response_time : Option ℚ
  deriving DecidableEq

/-- Value of `record.get("@timestamp", "")`. -/
def tsGet (r : Record) : List Char := r.timestamp.getD []

/-- DateReportFilter.filter from `src/main.py`: parse the criterion, build the
target date, keep records whose timestamp contains `str(target_date)`.
`date(year, month, day)` first converts each component to a C `int`, raising
`OverflowError` for a component outside that range, and only then performs
range validation, raising `ValueError`. -/
def DateReportFilter.filter (rawData : List Record) (filterValue : List Char) :
    Except PyErr (List Record) :=
  match parse3 filterValue with
  | none => .error .valueError
  | some (y, mo, dy) =>
      if cIntFits y && cIntFits mo && cIntFits dy then
        if dateValid y mo dy then
          let target := formatDate y.toNat mo.toNat dy.toNat
          .ok (rawData.filter fun r => hasSub target (tsGet r))
        else .error .valueError
      else .error .overflowError

/-- Per-endpoint accumulator during `AverageReportGenerator.generate`: the
`avg_response_time` field holds the running sum of response times, and is
`none` when a missing `response_time` was stored. -/
structure AccStat where
  handler : Key
  total : ℕ
  avg_response_time : Option ℚ
  deriving DecidableEq

/-- Per-file endpoint statistic, after the final averaging pass. -/
structure PerStat where
  handler : Key
  total : ℕ
  avg_response_time : ℚ
  deriving DecidableEq

/-- One iteration of the aggregation loop body in `generate`. -/
def genStep (stats : List (Key × AccStat)) (r : Record) :
    Except PyErr (List (Key × AccStat)) :=
  match lookupA r.url stats with
  | none => .ok (stats ++ [(r.url, ⟨r.url, 1, r.response_time⟩)])
  | some s =>
      match s.avg_response_time, r.response_time with
      | some x, some y =>
          .ok (updateA r.url ⟨s.handler, s.total + 1, some (x + y)⟩ stats)
      | _, _ => .error .typeError

/-- The aggregation loop of `generate` over the input records. -/
def genFold (stats : List (Key × AccStat)) : List Record →
    Except PyErr (List (Key × AccStat))
  | [] => .ok stats
  | r :: rs =>
      match genStep stats r with
      | .error e => .error e
      | .ok stats' => genFold stats' rs

/-- Final averaging pass of `generate` on one accumulated entry; dividing a
`None` sum raises `TypeError`. -/
def finStat (s : AccStat) : Except PyErr PerStat :=
  match s.avg_response_time with
  | some x => .ok ⟨s.handler, s.total, round3 (x / (s.total : ℚ))⟩
  | none => .error .typeError

/-- Final averaging loop of `generate` over all accumulated entries, in
insertion order; the first `None` sum raises. -/
def finalizePass : List (Key × AccStat) → Except PyErr (List (Key × PerStat))
  | [] => .ok []
  | p :: t =>
      match finStat p.2 with
      | .error e => .error e
      | .ok s =>
          match finalizePass t with
          | .error e => .error e
          | .ok rest => .ok ((p.1, s) :: rest)

/-- AverageReportGenerator.generate from `src/main.py`. -/
def AverageReportGenerator.generate (inputData : List Record) :
    Except PyErr (List (Key × PerStat)) :=
  if inputData = [] then .error .valueError
  else
    match genFold [] inputData with
    | .error e => .error e
    | .ok stats => finalizePass stats

/-- Cross-file accumulator entry in `_merge_statistics`. -/
structure MAcc where
  handler : Key
  total : ℕ
  sum_time : ℚ
  deriving DecidableEq

/-- Ranked entry of the final merged report. -/
structure FinalStat where
  idx : ℕ
  handler : Key
  total : ℕ
  avg_response_time : ℚ
  deriving DecidableEq

/-- Fold one endpoint of one per-file report into the combined statistics
(the inner loop body of `_merge_statistics`). -/
def mergeStepOne (acc : List (Key × MAcc)) (p : Key × PerStat) :
    List (Key × MAcc) :=
  match lookupA p.1 acc with
  | none =>
      acc ++ [(p.1, ⟨p.1, p.2.total, p.2.avg_response_time * (p.2.total : ℚ)⟩)]
  | some s =>
      updateA p.1
        ⟨s.handler, s.total + p.2.total,
         s.sum_time + p.2.avg_response_time * (p.2.total : ℚ)⟩ acc

/-- Fold one whole per-file report into the combined statistics. -/
def mergeStep (acc : List (Key × MAcc)) (report : List (Key × PerStat)) :
    List (Key × MAcc) :=
  report.foldl mergeStepOne acc

/-- The combined statistics accumulated over all per-file reports. -/
def combinedStats (reports : List (List (Key × PerStat))) : List (Key × MAcc) :=
  reports.foldl mergeStep []

/-- Insert an entry into a list sorted by descending `total`, after every
entry with a strictly greater or equal `total` already present later in the
original order is respected: together with `sortByTotalDesc` this models the
stable descending sort `sorted(items, key=total, reverse=True)`. -/
def insertByTotal (x : Key × MAcc) : List (Key × MAcc) → List (Key × MAcc)
  | [] => [x]
  | y :: ys => if x.2.total < y.2.total then y :: insertByTotal x ys
               else x :: y :: ys

/-- Stable sort by descending `total`. -/
def sortByTotalDesc (l : List (Key × MAcc)) : List (Key × MAcc) :=
  l.foldr insertByTotal []

/-- Python `enumerate` starting at a given index. -/
def enumerate {α : Type} : ℕ → List α → List (ℕ × α)
  | _, [] => []
  | i, x :: xs => (i, x) :: enumerate (i + 1) xs

/-- ReportEngine._merge_statistics from `src/main.py`. -/
def ReportEngine.mergeStatistics (statisticsReports : List (List (Key × PerStat))) :
    List (Key × FinalStat) :=
  let sortedEndpoints := sortByTotalDesc (combinedStats statisticsReports)
  (enumerate 0 sortedEndpoints).map fun p =>
    (p.2.1, ⟨p.1, p.2.2.handler, p.2.2.total,
             round3 (p.2.2.sum_time / (p.2.2.total : ℚ))⟩)

/-- TableRender.render from `src/main.py`: refuses an empty report, otherwise
yields the table rows (the stat records, in report order). -/
def TableRender.render (reportData : List (Key × FinalStat)) :
    Except PyErr (List FinalStat) :=
  if reportData = [] then .error .valueError
  else .ok (reportData.map Prod.snd)

/-- ReportEngine._validate_date from `src/main.py`. Its
`except (ValueError, AttributeError)` clause turns a parse failure or an
out-of-range date into `False`, but does not catch the `OverflowError` that
`date(y, m, d)` raises when a component does not fit a C `int`; that
exception propagates to the caller. -/
def ReportEngine.validateDate (dateStr : List Char) : Except PyErr Bool :=
  if dateStr.isEmpty then .ok true
  else
    match parse3 dateStr with
    | some (y, mo, dy) =>
        if cIntFits y && cIntFits mo && cIntFits dy then .ok (dateValid y mo dy)
        else .error .overflowError
    | none => .ok false

/-- Truthiness of the optional `date_value` argument: `None` and the empty
string are falsy in Python. -/
def dTruthy : Option (List Char) → Bool
  | none => false
  | some s => !s.isEmpty

/-- Per-file loop of `ReportEngine.run`: read, optionally filter, aggregate,
reject files that contribute nothing; `generate` is called a second time when
appending, exactly as the source does. -/
def ReportEngine.processFiles (reader : List Char → Except PyErr (List Record))
    (dateValue : Option (List Char)) :
    List (List Char) → Except PyErr (List (List (Key × PerStat)))
  | [] => .ok []
  | f :: fs => do
      let rawLogs ← reader f
      let logs ← if dTruthy dateValue then
                   DateReportFilter.filter rawLogs (dateValue.getD [])
                 else .ok rawLogs
      let report ← AverageReportGenerator.generate logs
      if report = [] then .error .valueError
      else do
        let report2 ← AverageReportGenerator.generate logs
        let rest ← ReportEngine.processFiles reader dateValue fs
        .ok (report2 :: rest)

/-- Tail of `ReportEngine.run` after the per-file loop: the empty-report
guards (both raising `RuntimeError`), the merge, and the render. -/
def ReportEngine.mergeAndRenderStage (collectedReports : List (List (Key × PerStat))) :
    Except PyErr (List FinalStat) :=
  if collectedReports = [] then .error .runtimeError
  else
    let finalStatistics := ReportEngine.mergeStatistics collectedReports
    if finalStatistics = [] then .error .runtimeError
    else TableRender.render finalStatistics

/-- ReportEngine.run from `src/main.py`: validation, per-file processing,
merge and render. The reader collaborator is a parameter. `_validate_date` is
only called when the date argument is truthy; an `OverflowError` it lets
through propagates out of `run` (the enclosing `except Exception` re-raises),
while a `False` return raises `ValueError`. -/
def ReportEngine.run (reader : List Char → Except PyErr (List Record))
    (hasReportFilter : Bool) (files : List (List Char))
    (dateValue : Option (List Char)) : Except PyErr (List FinalStat) :=
  if files = [] then .error .valueError
  else if dTruthy dateValue then
    match ReportEngine.validateDate (dateValue.getD []) with
    | .error e => .error e
    | .ok false => .error .valueError
    | .ok true =>
        if !hasReportFilter then .error .valueError
        else do
          let collected ← ReportEngine.processFiles reader dateValue files
          ReportEngine.mergeAndRenderStage collected
  else do
    let collected ← ReportEngine.processFiles reader dateValue files
    ReportEngine.mergeAndRenderStage collected

def wRec1 : Record := ⟨some "2023-01-01T12:00:00".toList, some "/api/users".toList, some 100⟩

def wRec2 : Record := ⟨some "2023-01-02T00:00:00".toList, some "/api/users".toList, some 150⟩

def wRec3 : Record := ⟨none, some "/x".toList, some 7⟩

/-! ### First-seen keys, counts and sums of a record sequence -/

/-- Append a key at the end unless already present (dict key discovery
order). -/
def insKey (acc : List Key) (k : Key) : List Key :=
  if k ∈ acc then acc else acc ++ [k]

/-- Endpoint keys of a record sequence, in first-seen order. -/
def firstSeenKeys (l : List Record) : List Key :=
  (l.map fun r => r.url).foldl insKey []

/-- Number of records carrying a given endpoint key. -/
def cntUrl (l : List Record) (u : Key) : ℕ :=
  (l.filter fun r => r.url = u).length

/-- Sum of the response times of the records carrying a given endpoint key. -/
def sumUrl (l : List Record) (u : Key) : ℚ :=
  ((l.filter fun r => r.url = u).map fun r => r.response_time.getD 0).sum

/-- Shape of one finalized per-file entry: the averaging applied to an
accumulated entry. -/
def perStatOf (p : Key × AccStat) : PerStat :=
  ⟨p.2.handler, p.2.total,
   round3 (p.2.avg_response_time.getD 0 / (p.2.total : ℚ))⟩

def wNull : Record := ⟨some "2023-01-01T09:00:00".toList, none, some 5⟩

def wNoRt : Record := ⟨some "2023-01-01T10:00:00".toList, some "/a".toList, none⟩

/-! ### Merge: per-file contributions of an endpoint -/

/-- Contribution of one per-file report to an endpoint's merged `total`. -/
def fileTotal (u : Key) (rep : List (Key × PerStat)) : ℕ :=
  match lookupA u rep with
  | some d => d.total
  | none => 0

/-- Contribution of one per-file report to an endpoint's merged `sum_time`. -/
def fileWeighted (u : Key) (rep : List (Key × PerStat)) : ℚ :=
  match lookupA u rep with
  | some d => d.avg_response_time * (d.total : ℚ)
  | none => 0

/-- Sum of per-file totals of an endpoint over all reports. -/
def specTotal (reports : List (List (Key × PerStat))) (u : Key) : ℕ :=
  (reports.map (fileTotal u)).sum

/-- Sum of per-file `avg·total` products of an endpoint over all reports. -/
def specWeighted (reports : List (List (Key × PerStat))) (u : Key) : ℚ :=
  (reports.map (fileWeighted u)).sum

def wKeyA : Key := some "/a".toList

def wKeyB : Key := some "/b".toList

def wRepA : List (Key × PerStat) :=
  [(wKeyA, ⟨wKeyA, 2, 150⟩), (wKeyB, ⟨wKeyB, 1, 50⟩)]

def wRepB : List (Key × PerStat) := [(wKeyA, ⟨wKeyA, 1, 300⟩)]

def wRepC : List (Key × PerStat) :=
  [(wKeyA, ⟨wKeyA, 1, 100⟩), (wKeyB, ⟨wKeyB, 1, 50⟩)]

/-! ### Digit rendering and parsing lemmas -/

theorem digitVal_digitChar {d : ℕ} (h : d < 10) : digitVal (digitChar d) = some d := by
  interval_cases d <;> decide

theorem digitChar_ne_dash {d : ℕ} (h : d < 10) : digitChar d ≠ '-' := by
  interval_cases d <;> decide

theorem digitChar_ne_plus {d : ℕ} (h : d < 10) : digitChar d ≠ '+' := by
  interval_cases d <;> decide

theorem isPySpace_digitChar {d : ℕ} (h : d < 10) : isPySpace (digitChar d) = false := by
  interval_cases d <;> decide

theorem digitsCore_nil (acc : ℕ) : digitsCore acc [] = some acc := rfl

theorem digitsCore_cons {c : Char} {d : ℕ} (acc : ℕ) (cs : List Char)
    (h : digitVal c = some d) :
    digitsCore acc (c :: cs) = digitsCore (10 * acc + d) cs := by
  have hne : c ≠ '_' := by
    intro he
    rw [he, show digitVal '_' = none from by decide] at h
    exact Option.noConfusion h
  cases cs with
  | nil => rw [digitsCore.eq_2, if_neg hne, h]
  | cons c2 cs2 => rw [digitsCore.eq_3, if_neg hne, h]

theorem parseDigits_cons {c : Char} {d : ℕ} (cs : List Char) (h : digitVal c = some d) :
    parseDigits (c :: cs) = digitsCore d cs := by
  simp only [parseDigits, h]

theorem parseDigits_pad4 {n : ℕ} (h : n < 10000) : parseDigits (pad4 n) = some n := by
  have h1 : n / 1000 % 10 < 10 := Nat.mod_lt _ (by norm_num)
  have h2 : n / 100 % 10 < 10 := Nat.mod_lt _ (by norm_num)
  have h3 : n / 10 % 10 < 10 := Nat.mod_lt _ (by norm_num)
  have h4 : n % 10 < 10 := Nat.mod_lt _ (by norm_num)
  rw [pad4, parseDigits_cons _ (digitVal_digitChar h1),
      digitsCore_cons _ _ (digitVal_digitChar h2),
      digitsCore_cons _ _ (digitVal_digitChar h3),
      digitsCore_cons _ _ (digitVal_digitChar h4), digitsCore_nil]
  congr 1
  omega

theorem parseDigits_pad2 {n : ℕ} (h : n < 100) : parseDigits (pad2 n) = some n := by
  have h1 : n / 10 % 10 < 10 := Nat.mod_lt _ (by norm_num)
  have h2 : n % 10 < 10 := Nat.mod_lt _ (by norm_num)
  rw [pad2, parseDigits_cons _ (digitVal_digitChar h1),
      digitsCore_cons _ _ (digitVal_digitChar h2), digitsCore_nil]
  congr 1
  omega

theorem dropWhile_space_eq_self {s : List Char} (h : ∀ c ∈ s, isPySpace c = false) :
    s.dropWhile isPySpace = s := by
  cases s with
  | nil => rfl
  | cons c t => exact List.dropWhile_cons_of_neg (by simp [h c (by simp)])

theorem stripSpaces_eq_self {s : List Char} (h : ∀ c ∈ s, isPySpace c = false) :
    stripSpaces s = s := by
  rw [stripSpaces, dropWhile_space_eq_self h,
      dropWhile_space_eq_self (fun c hc => h c (List.mem_reverse.mp hc)),
      List.reverse_reverse]

theorem pad4_no_space (n : ℕ) : ∀ c ∈ pad4 n, isPySpace c = false := by
  intro c hc
  simp only [pad4, List.mem_cons, List.not_mem_nil, or_false] at hc
  rcases hc with h | h | h | h <;>
    (subst h; exact isPySpace_digitChar (Nat.mod_lt _ (by norm_num)))

theorem pad2_no_space (n : ℕ) : ∀ c ∈ pad2 n, isPySpace c = false := by
  intro c hc
  simp only [pad2, List.mem_cons, List.not_mem_nil, or_false] at hc
  rcases hc with h | h <;>
    (subst h; exact isPySpace_digitChar (Nat.mod_lt _ (by norm_num)))

theorem pad4_no_dash (n : ℕ) : ∀ c ∈ pad4 n, c ≠ '-' := by
  intro c hc
  simp only [pad4, List.mem_cons, List.not_mem_nil, or_false] at hc
  rcases hc with h | h | h | h <;>
    (subst h; exact digitChar_ne_dash (Nat.mod_lt _ (by norm_num)))

theorem pad2_no_dash (n : ℕ) : ∀ c ∈ pad2 n, c ≠ '-' := by
  intro c hc
  simp only [pad2, List.mem_cons, List.not_mem_nil, or_false] at hc
  rcases hc with h | h <;>
    (subst h; exact digitChar_ne_dash (Nat.mod_lt _ (by norm_num)))

theorem splitDashAux_append {a : List Char} (cur rest : List Char)
    (ha : ∀ c ∈ a, c ≠ '-') :
    splitDashAux cur (a ++ rest) = splitDashAux (a.reverse ++ cur) rest := by
  induction a generalizing cur with
  | nil => simp
  | cons c t ih =>
      have hc : c ≠ '-' := ha c (by simp)
      rw [List.cons_append]
      rw [show splitDashAux cur (c :: (t ++ rest)) = splitDashAux (c :: cur) (t ++ rest) by
        simp [splitDashAux, if_neg hc]]
      rw [ih (c :: cur) (fun x hx => ha x (by simp [hx]))]
      simp

theorem splitDashAux_dash (cur rest : List Char) :
    splitDashAux cur ('-' :: rest) = cur.reverse :: splitDashAux [] rest := by
  simp [splitDashAux]

theorem splitDash_formatDate (y m d : ℕ) :
    splitDash (formatDate y m d) = [pad4 y, pad2 m, pad2 d] := by
  rw [splitDash, formatDate, List.append_assoc, List.cons_append,
      splitDashAux_append _ _ (pad4_no_dash y),
      splitDashAux_dash, splitDashAux_append _ _ (pad2_no_dash m),
      splitDashAux_dash, ← List.append_nil (pad2 d),
      splitDashAux_append _ _ (pad2_no_dash d)]
  simp [splitDashAux]

theorem stripSpaces_pad4 (n : ℕ) : stripSpaces (pad4 n) = pad4 n :=
  stripSpaces_eq_self (pad4_no_space n)

theorem stripSpaces_pad2 (n : ℕ) : stripSpaces (pad2 n) = pad2 n :=
  stripSpaces_eq_self (pad2_no_space n)

theorem pyInt_digits {s : List Char} {v : ℕ} (hs : stripSpaces s = s)
    (hne : s ≠ []) (hdash : s.head? ≠ some '-') (hplus : s.head? ≠ some '+')
    (hp : parseDigits s = some v) : pyInt? s = some (v : ℤ) := by
  unfold pyInt?
  rw [hs]
  cases s with
  | nil => exact absurd rfl hne
  | cons c cs =>
      dsimp only
      rw [if_neg (by simpa using hdash), if_neg (by simpa using hplus), hp]
      rfl

theorem pyInt_pad4 {n : ℕ} (h : n < 10000) : pyInt? (pad4 n) = some (n : ℤ) := by
  have h1 : n / 1000 % 10 < 10 := Nat.mod_lt _ (by norm_num)
  refine pyInt_digits (stripSpaces_pad4 n) (by simp [pad4]) ?_ ?_ (parseDigits_pad4 h)
  · simp only [pad4, List.head?_cons, ne_eq, Option.some.injEq]
    exact digitChar_ne_dash h1
  · simp only [pad4, List.head?_cons, ne_eq, Option.some.injEq]
    exact digitChar_ne_plus h1

theorem pyInt_pad2 {n : ℕ} (h : n < 100) : pyInt? (pad2 n) = some (n : ℤ) := by
  have h1 : n / 10 % 10 < 10 := Nat.mod_lt _ (by norm_num)
  refine pyInt_digits (stripSpaces_pad2 n) (by simp [pad2]) ?_ ?_ (parseDigits_pad2 h)
  · simp only [pad2, List.head?_cons, ne_eq, Option.some.injEq]
    exact digitChar_ne_dash h1
  · simp only [pad2, List.head?_cons, ne_eq, Option.some.injEq]
    exact digitChar_ne_plus h1

theorem parse3_formatDate {y m d : ℕ} (hy : y < 10000) (hm : m < 100) (hd : d < 100) :
    parse3 (formatDate y m d) = some ((y : ℤ), (m : ℤ), (d : ℤ)) := by
  unfold parse3
  rw [splitDash_formatDate]
  dsimp only
  rw [pyInt_pad4 hy, pyInt_pad2 hm, pyInt_pad2 hd]

theorem dateValid_nat_bounds {y m d : ℕ}
    (h : dateValid (y : ℤ) (m : ℤ) (d : ℤ) = true) :
    y < 10000 ∧ m < 100 ∧ d < 100 := by
  have hdm : daysInMonth (y : ℤ) (m : ℤ) ≤ 31 := by
    unfold daysInMonth
    split_ifs <;> norm_num
  simp only [dateValid, decide_eq_true_eq] at h
  omega

theorem cIntFits_nat {n : ℕ} (h : n ≤ 2147483647) : cIntFits (n : ℤ) = true := by
  simp only [cIntFits, decide_eq_true_eq]
  omega

/-- C6: for every record list and every valid `YYYY-MM-DD` criterion (the
zero-padded rendering of a valid calendar date), the date filter returns
exactly the records whose timestamp contains the criterion as a substring;
a record lacking a timestamp never matches, and no error is raised. -/
theorem dateFilter_substring_spec (rawData : List Record) (y m d : ℕ)
    (hv : dateValid (y : ℤ) (m : ℤ) (d : ℤ) = true) :
    DateReportFilter.filter rawData (formatDate y m d) =
      .ok (rawData.filter fun r => hasSub (formatDate y m d) (tsGet r)) ∧
    ∀ r : Record, r.timestamp = none →
      hasSub (formatDate y m d) (tsGet r) = false := by
  obtain ⟨hy, hm, hd⟩ := dateValid_nat_bounds hv
  have hc : (cIntFits (y : ℤ) && cIntFits (m : ℤ) && cIntFits (d : ℤ)) = true := by
    rw [cIntFits_nat (by omega), cIntFits_nat (by omega), cIntFits_nat (by omega)]
    rfl
  constructor
  · unfold DateReportFilter.filter
    rw [parse3_formatDate hy hm hd]
    dsimp only
    rw [if_pos hc, if_pos hv, Int.toNat_natCast, Int.toNat_natCast, Int.toNat_natCast]
  · intro r hr
    rw [tsGet, hr]
    rfl

/-- Witness for C6 at a concrete record list and the criterion 2023-01-01. -/
theorem dateFilter_substring_spec_witness :
    dateValid ((2023 : ℕ) : ℤ) ((1 : ℕ) : ℤ) ((1 : ℕ) : ℤ) = true ∧
    (DateReportFilter.filter [wRec1, wRec2, wRec3] (formatDate 2023 1 1) =
      .ok ([wRec1, wRec2, wRec3].filter fun r =>
        hasSub (formatDate 2023 1 1) (tsGet r)) ∧
    ∀ r : Record, r.timestamp = none →
      hasSub (formatDate 2023 1 1) (tsGet r) = false) :=
  ⟨by decide, dateFilter_substring_spec [wRec1, wRec2, wRec3] 2023 1 1 (by decide)⟩

/-- C8: date filtering is idempotent: a successful filtering, re-filtered with
the same criterion, returns its own output unchanged. -/
theorem dateFilter_idempotent (rawData out : List Record) (filterValue : List Char)
    (h : DateReportFilter.filter rawData filterValue = .ok out) :
    DateReportFilter.filter out filterValue = .ok out := by
  unfold DateReportFilter.filter at h ⊢
  cases hp : parse3 filterValue with
  | none =>
      rw [hp] at h
      exact Except.noConfusion h
  | some t =>
      obtain ⟨y, mo, dy⟩ := t
      rw [hp] at h
      dsimp only at h ⊢
      by_cases hc : (cIntFits y && cIntFits mo && cIntFits dy) = true
      · rw [if_pos hc] at h ⊢
        by_cases hv : dateValid y mo dy = true
        · rw [if_pos hv] at h ⊢
          injection h with h2
          rw [← h2, List.filter_filter]
          simp
        · rw [if_neg hv] at h
          exact Except.noConfusion h
      · rw [if_neg hc] at h
        exact Except.noConfusion h

/-- Witness for C8: filtering a concrete two-record list keeps one record,
and re-filtering that output returns it unchanged. -/
theorem dateFilter_idempotent_witness :
    DateReportFilter.filter [wRec1, wRec2] "2023-01-01".toList = .ok [wRec1] ∧
    DateReportFilter.filter [wRec1] "2023-01-01".toList = .ok [wRec1] :=
  ⟨by decide, dateFilter_idempotent [wRec1, wRec2] [wRec1] _ (by decide)⟩

/-- C5: aggregating an empty record sequence raises `ValueError` (the
InvalidArgument kind), and rendering an empty report raises `ValueError`. -/
theorem generate_empty_render_empty_valueError :
    AverageReportGenerator.generate [] = .error .valueError ∧
    TableRender.render [] = .error .valueError :=
  ⟨rfl, rfl⟩

/-- C4 counterexample: merging an empty sequence of per-file statistics (or a
sequence of empty mappings) does not fail at all — it returns an empty
report — and the engine stage that refuses to continue raises the
`RuntimeError` kind, which is not the InvalidArgument (`ValueError`) kind. -/
theorem merge_empty_counterexample :
    ReportEngine.mergeStatistics [] = [] ∧
    ReportEngine.mergeStatistics [[]] = [] ∧
    ReportEngine.mergeAndRenderStage [] = .error .runtimeError ∧
    PyErr.runtimeError ≠ PyErr.valueError :=
  ⟨rfl, rfl, rfl, by decide⟩

/-- C4 amended: `_merge_statistics` returns an empty mapping (without
raising) on an empty sequence of per-file statistics or on all-empty
mappings; the engine then refuses to render the empty report, but with a
`RuntimeError`-kind failure, not an InvalidArgument-kind one. -/
theorem merge_empty_refused_with_runtimeError :
    (ReportEngine.mergeStatistics [] = [] ∧ ReportEngine.mergeStatistics [[]] = []) ∧
    ReportEngine.mergeAndRenderStage [] = .error .runtimeError ∧
    ReportEngine.mergeAndRenderStage [[]] = .error .runtimeError :=
  ⟨⟨rfl, rfl⟩, rfl, rfl⟩

/-- C7 counterexample: the criterion `4294967296-01-01` is not a syntactically
valid calendar date (its year, 2^32, is far out of the `datetime` range, so
`dateValid` rejects it), yet `run` does not fail with the InvalidArgument
(`ValueError`) kind: `date(4294967296, 1, 1)` raises `OverflowError` at
C-`int` argument conversion, `_validate_date` catches only `ValueError` and
`AttributeError`, and `run` re-raises — so the run propagates an
`OverflowError`-kind failure instead. -/
theorem run_overflow_counterexample :
    parse3 "4294967296-01-01".toList = some (4294967296, 1, 1) ∧
    dateValid 4294967296 1 1 = false ∧
    cIntFits 4294967296 = false ∧
    ReportEngine.run (fun _ => .ok []) true ["g".toList]
      (some "4294967296-01-01".toList) = .error .overflowError ∧
    PyErr.overflowError ≠ PyErr.valueError :=
  ⟨by decide, by decide, by decide, by decide, by decide⟩

/-- C7 amended: `ReportEngine.run` fails with the `ValueError`
(InvalidArgument) kind, for every reader collaborator — hence before any file
is read — when the file list is empty, when a supplied (truthy) date
criterion makes `_validate_date` return `False` (criterion unparsable, or a
calendar-invalid date whose components fit a C `int`), or when a truthy date
criterion on which `_validate_date` returns normally is supplied while no
filter collaborator is configured. Criteria with a component of 2^31 or more
are excluded: on those, `run` propagates `OverflowError` instead. -/
theorem run_fail_fast_bounded (reader : List Char → Except PyErr (List Record))
    (hasReportFilter : Bool) (files : List (List Char))
    (dateValue : Option (List Char))
    (h : files = [] ∨
         (dTruthy dateValue = true ∧
          ReportEngine.validateDate (dateValue.getD []) = .ok false) ∨
         (dTruthy dateValue = true ∧ hasReportFilter = false ∧
          ∃ b, ReportEngine.validateDate (dateValue.getD []) = .ok b)) :
    ReportEngine.run reader hasReportFilter files dateValue = .error .valueError := by
  unfold ReportEngine.run
  rcases h with h | ⟨h1, h2⟩ | ⟨h1, h2, b, h3⟩
  · rw [if_pos h]
  · by_cases hf : files = []
    · rw [if_pos hf]
    · rw [if_neg hf, if_pos h1, h2]
  · by_cases hf : files = []
    · rw [if_pos hf]
    · rw [if_neg hf, if_pos h1, h3]
      cases b
      · rfl
      · dsimp only
        rw [h2]
        rfl

/-- Witness for C7 amended: a calendar-invalid date criterion (month 13, all
components small) makes the run fail with `ValueError` regardless of the
reader. -/
theorem run_fail_fast_bounded_witness :
    (["f".toList] = ([] : List (List Char)) ∨
     (dTruthy (some "2023-13-01".toList) = true ∧
      ReportEngine.validateDate ((some "2023-13-01".toList).getD []) = .ok false) ∨
     (dTruthy (some "2023-13-01".toList) = true ∧ true = false ∧
      ∃ b, ReportEngine.validateDate ((some "2023-13-01".toList).getD []) = .ok b)) ∧
    ReportEngine.run (fun _ => .ok []) true ["f".toList]
      (some "2023-13-01".toList) = .error .valueError :=
  ⟨Or.inr (Or.inl (by decide)),
   run_fail_fast_bounded (fun _ => .ok []) true ["f".toList] (some "2023-13-01".toList)
     (Or.inr (Or.inl (by decide)))⟩

/-! ### Association-list lemmas -/

theorem lookupA_append {α : Type} (u : Key) (l₁ l₂ : List (Key × α)) :
    lookupA u (l₁ ++ l₂) =
      match lookupA u l₁ with
      | some v => some v
      | none => lookupA u l₂ := by
  induction l₁ with
  | nil => rfl
  | cons p t ih =>
      obtain ⟨k, v⟩ := p
      by_cases hk : u = k
      · simp [lookupA, hk]
      · simp [lookupA, hk, ih]

theorem lookupA_updateA_self {α : Type} {u : Key} {l : List (Key × α)} {s : α}
    (v : α) (h : lookupA u l = some s) :
    lookupA u (updateA u v l) = some v := by
  induction l with
  | nil => exact Option.noConfusion h
  | cons p t ih =>
      obtain ⟨k, w⟩ := p
      by_cases hk : u = k
      · subst hk
        simp [updateA, lookupA]
      · rw [lookupA, if_neg hk] at h
        simp [updateA, lookupA, hk, ih h, Ne.symm hk]

theorem lookupA_updateA_ne {α : Type} {u k : Key} (hne : u ≠ k) (v : α)
    (l : List (Key × α)) : lookupA u (updateA k v l) = lookupA u l := by
  induction l with
  | nil => rfl
  | cons p t ih =>
      obtain ⟨k', w⟩ := p
      by_cases hk : k = k'
      · subst hk
        simp [updateA, lookupA, hne, ih]
      · by_cases hu : u = k' <;> simp [updateA, lookupA, hk, hu, ih]

theorem updateA_map_fst {α : Type} (k : Key) (v : α) (l : List (Key × α)) :
    (updateA k v l).map Prod.fst = l.map Prod.fst := by
  induction l with
  | nil => rfl
  | cons p t ih =>
      obtain ⟨k', w⟩ := p
      by_cases hk : k = k' <;> simp [updateA, hk, ih]

theorem lookupA_eq_none_iff {α : Type} (u : Key) (l : List (Key × α)) :
    lookupA u l = none ↔ u ∉ l.map Prod.fst := by
  induction l with
  | nil => simp [lookupA]
  | cons p t ih =>
      obtain ⟨k, w⟩ := p
      by_cases hk : u = k
      · subst hk
        rw [lookupA, if_pos rfl]
        simp only [List.map_cons, List.mem_cons]
        constructor
        · intro h
          exact Option.noConfusion h
        · intro h
          exact absurd (Or.inl trivial) h
      · rw [lookupA, if_neg hk]
        rw [ih]
        simp only [List.map_cons, List.mem_cons]
        constructor
        · intro h hor
          rcases hor with he | hm
          · exact hk he
          · exact h hm
        · intro h hm
          exact h (Or.inr hm)

theorem lookupA_mem {α : Type} {u : Key} {l : List (Key × α)} {v : α}
    (h : lookupA u l = some v) : (u, v) ∈ l := by
  induction l with
  | nil => exact Option.noConfusion h
  | cons p t ih =>
      obtain ⟨k, w⟩ := p
      by_cases hk : u = k
      · subst hk
        rw [lookupA, if_pos rfl] at h
        injection h with h2
        subst h2
        simp
      · rw [lookupA, if_neg hk] at h
        simp [ih h]

theorem mem_lookupA {α : Type} {l : List (Key × α)}
    (hnd : (l.map Prod.fst).Nodup) {k : Key} {v : α} (h : (k, v) ∈ l) :
    lookupA k l = some v := by
  induction l with
  | nil => cases h
  | cons p t ih =>
      obtain ⟨k', w⟩ := p
      simp only [List.map_cons, List.nodup_cons] at hnd
      rcases List.mem_cons.mp h with he | hm
      · rw [Prod.mk.injEq] at he
        obtain ⟨he1, he2⟩ := he
        subst he1; subst he2
        rw [lookupA, if_pos rfl]
      · have hk : k ≠ k' := by
          intro hkk
          subst hkk
          exact hnd.1 (List.mem_map.mpr ⟨(k, v), hm, rfl⟩)
        rw [lookupA, if_neg hk]
        exact ih hnd.2 hm

theorem mem_updateA {α : Type} {p : Key × α} {l : List (Key × α)} {k : Key}
    {s : α} (v : α) (hl : lookupA k l = some s) (hp : p ∈ l)
    (hps : p ≠ (k, s)) : p ∈ updateA k v l := by
  induction l with
  | nil => cases hp
  | cons q t ih =>
      obtain ⟨k', w⟩ := q
      by_cases hk : k = k'
      · subst hk
        rw [lookupA, if_pos rfl] at hl
        injection hl with hl2
        subst hl2
        rw [updateA, if_pos rfl]
        rcases List.mem_cons.mp hp with he | hm
        · exact absurd he hps
        · simp [hm]
      · rw [lookupA, if_neg hk] at hl
        rw [updateA, if_neg hk]
        rcases List.mem_cons.mp hp with he | hm
        · simp [he]
        · simp [ih hl hm]

theorem mem_updateA_or {α : Type} {p : Key × α} {k : Key} {v : α}
    {l : List (Key × α)} (hp : p ∈ updateA k v l) : p ∈ l ∨ p.2 = v := by
  induction l with
  | nil => cases hp
  | cons q t ih =>
      obtain ⟨k', w⟩ := q
      by_cases hk : k = k'
      · rw [updateA, if_pos hk] at hp
        rcases List.mem_cons.mp hp with he | hm
        · right; rw [he]
        · left; simp [hm]
      · rw [updateA, if_neg hk] at hp
        rcases List.mem_cons.mp hp with he | hm
        · left; simp [he]
        · rcases ih hm with h | h
          · left; simp [h]
          · right; exact h

theorem foldl_insKey_nodup (ks : List Key) :
    ∀ acc : List Key, acc.Nodup → (ks.foldl insKey acc).Nodup := by
  induction ks with
  | nil => intro acc h; exact h
  | cons k t ih =>
      intro acc h
      refine ih _ ?_
      unfold insKey
      split_ifs with hmem
      · exact h
      · simp [List.nodup_append, h, hmem]

theorem mem_foldl_insKey (ks : List Key) :
    ∀ (acc : List Key) (u : Key),
      u ∈ ks.foldl insKey acc ↔ u ∈ acc ∨ u ∈ ks := by
  induction ks with
  | nil => simp
  | cons k t ih =>
      intro acc u
      rw [List.foldl_cons, ih]
      unfold insKey
      split_ifs with hmem
      · by_cases hu : u = k <;> simp [hu, hmem]
      · by_cases hu : u = k <;> simp [hu]

theorem cntUrl_cons_self {r : Record} {u : Key} (l : List Record)
    (h : r.url = u) : cntUrl (r :: l) u = cntUrl l u + 1 := by
  simp [cntUrl, h]

theorem cntUrl_cons_ne {r : Record} {u : Key} (l : List Record)
    (h : r.url ≠ u) : cntUrl (r :: l) u = cntUrl l u := by
  simp [cntUrl, h]

theorem sumUrl_cons_self {r : Record} {u : Key} (l : List Record)
    (h : r.url = u) :
    sumUrl (r :: l) u = r.response_time.getD 0 + sumUrl l u := by
  simp [sumUrl, h]

theorem sumUrl_cons_ne {r : Record} {u : Key} (l : List Record)
    (h : r.url ≠ u) : sumUrl (r :: l) u = sumUrl l u := by
  simp [sumUrl, h]

theorem cntUrl_pos {l : List Record} {u : Key} (h : ∃ r ∈ l, r.url = u) :
    1 ≤ cntUrl l u := by
  obtain ⟨r, hr, hu⟩ := h
  have : r ∈ l.filter fun r => r.url = u :=
    List.mem_filter.mpr ⟨hr, by simp [hu]⟩
  have := List.length_pos.mpr (List.ne_nil_of_mem this)
  simpa [cntUrl] using this

/-! ### Characterization of the aggregation fold -/

theorem genFold_ok (l : List Record) :
    ∀ stats : List (Key × AccStat),
      (∀ r ∈ l, r.response_time.isSome) →
      (∀ p ∈ stats, p.2.avg_response_time.isSome) →
      ∃ stats', genFold stats l = .ok stats' ∧
        (∀ p ∈ stats', p.2.avg_response_time.isSome) ∧
        stats'.map Prod.fst =
          (l.map fun r => r.url).foldl insKey (stats.map Prod.fst) ∧
        ∀ u, lookupA u stats' =
          match lookupA u stats with
          | some s => some ⟨s.handler, s.total + cntUrl l u,
              some (s.avg_response_time.getD 0 + sumUrl l u)⟩
          | none =>
              if cntUrl l u = 0 then none
              else some ⟨u, cntUrl l u, some (sumUrl l u)⟩ := by
  induction l with
  | nil =>
      intro stats _ hstats
      refine ⟨stats, rfl, hstats, by simp, ?_⟩
      intro u
      cases hsu : lookupA u stats with
      | none => simp [cntUrl]
      | some s =>
          obtain ⟨x, hx⟩ := Option.isSome_iff_exists.mp (hstats _ (lookupA_mem hsu))
          obtain ⟨sh, st, sa⟩ := s
          simp only at hx
          subst hx
          simp [cntUrl, sumUrl]
  | cons r rs ih =>
      intro stats hrt hstats
      have hr : r.response_time.isSome := hrt r (by simp)
      obtain ⟨q, hq⟩ := Option.isSome_iff_exists.mp hr
      have hrts : ∀ r' ∈ rs, r'.response_time.isSome := fun r' h' =>
        hrt r' (by simp [h'])
      cases hl : lookupA r.url stats with
      | none =>
          have hstep : genStep stats r =
              .ok (stats ++ [(r.url, ⟨r.url, 1, r.response_time⟩)]) := by
            unfold genStep
            rw [hl]
          have hstats1 : ∀ p ∈ stats ++ [(r.url, ⟨r.url, 1, r.response_time⟩)],
              p.2.avg_response_time.isSome := by
            intro p hp
            rcases List.mem_append.mp hp with h | h
            · exact hstats p h
            · rw [List.mem_singleton] at h
              subst h
              simpa using hr
          obtain ⟨stats', hfold, hinv, hkeys, hlook⟩ := ih _ hrts hstats1
          have hmemkeys : r.url ∉ stats.map Prod.fst :=
            (lookupA_eq_none_iff _ _).mp hl
          refine ⟨stats', ?_, hinv, ?_, ?_⟩
          · simp only [genFold]
            rw [hstep]
            dsimp only
            exact hfold
          · rw [hkeys]
            simp only [List.map_cons, List.foldl_cons]
            congr 1
            rw [List.map_append, insKey, if_neg hmemkeys]
            rfl
          · intro u
            rw [hlook u]
            by_cases hu : u = r.url
            · subst hu
              have hub : lookupA r.url (stats ++ [(r.url, ⟨r.url, 1, r.response_time⟩)]) =
                  some ⟨r.url, 1, r.response_time⟩ := by
                rw [lookupA_append, hl]
                simp [lookupA]
              rw [hub, hl]
              dsimp only
              rw [cntUrl_cons_self rs rfl, sumUrl_cons_self rs rfl, hq]
              simp only [Option.getD_some]
              rw [if_neg (Nat.succ_ne_zero _)]
              rw [Nat.add_comm 1 (cntUrl rs r.url)]
            · have hne2 : lookupA u (stats ++ [(r.url, ⟨r.url, 1, r.response_time⟩)]) =
                  lookupA u stats := by
                rw [lookupA_append]
                cases lookupA u stats <;> simp [lookupA, hu]
              rw [hne2, cntUrl_cons_ne rs (fun h => hu h.symm),
                  sumUrl_cons_ne rs (fun h => hu h.symm)]
      | some s =>
          obtain ⟨x, hx⟩ := Option.isSome_iff_exists.mp (hstats _ (lookupA_mem hl))
          dsimp only at hx
          have hstep : genStep stats r =
              .ok (updateA r.url ⟨s.handler, s.total + 1, some (x + q)⟩ stats) := by
            unfold genStep
            rw [hl]
            dsimp only
            rw [hx, hq]
          have hstats1 : ∀ p ∈ updateA r.url ⟨s.handler, s.total + 1, some (x + q)⟩ stats,
              p.2.avg_response_time.isSome := by
            intro p hp
            rcases mem_updateA_or hp with h | h
            · exact hstats p h
            · rw [h]
              rfl
          obtain ⟨stats', hfold, hinv, hkeys, hlook⟩ := ih _ hrts hstats1
          have hmemkeys : r.url ∈ stats.map Prod.fst := by
            by_contra hno
            rw [← lookupA_eq_none_iff] at hno
            rw [hl] at hno
            exact Option.noConfusion hno
          refine ⟨stats', ?_, hinv, ?_, ?_⟩
          · simp only [genFold]
            rw [hstep]
            dsimp only
            exact hfold
          · rw [hkeys]
            simp only [List.map_cons, List.foldl_cons]
            congr 1
            rw [updateA_map_fst, insKey, if_pos hmemkeys]
          · intro u
            rw [hlook u]
            by_cases hu : u = r.url
            · subst hu
              rw [lookupA_updateA_self _ hl, hl]
              dsimp only
              rw [cntUrl_cons_self rs rfl, sumUrl_cons_self rs rfl, hq, hx]
              simp only [Option.getD_some]
              have ht : s.total + 1 + cntUrl rs r.url = s.total + (cntUrl rs r.url + 1) := by
                omega
              have ha : x + q + sumUrl rs r.url = x + (q + sumUrl rs r.url) := by
                ring
              rw [ht, ha]
            · rw [lookupA_updateA_ne hu _ _,
                  cntUrl_cons_ne rs (fun h => hu h.symm),
                  sumUrl_cons_ne rs (fun h => hu h.symm)]

theorem lookupA_map_vals {α β : Type} (g : Key × α → β) (u : Key)
    (l : List (Key × α)) :
    lookupA u (l.map fun p => (p.1, g p)) =
      (lookupA u l).map fun v => g (u, v) := by
  induction l with
  | nil => rfl
  | cons p t ih =>
      obtain ⟨k, w⟩ := p
      simp only [List.map_cons]
      by_cases hk : u = k
      · subst hk
        rw [lookupA, if_pos rfl, lookupA, if_pos rfl]
        rfl
      · rw [lookupA, if_neg hk, lookupA, if_neg hk]
        exact ih

theorem map_fst_map_vals {α β : Type} (g : Key × α → β) (l : List (Key × α)) :
    (l.map fun p => (p.1, g p)).map Prod.fst = l.map Prod.fst := by
  induction l with
  | nil => rfl
  | cons p t ih =>
      simp only [List.map_cons]
      rw [ih]

theorem finStat_none {s : AccStat} (h : s.avg_response_time = none) :
    finStat s = .error .typeError := by
  simp only [finStat, h]

theorem finalizePass_ok {stats : List (Key × AccStat)}
    (h : ∀ p ∈ stats, p.2.avg_response_time.isSome) :
    finalizePass stats = .ok (stats.map fun p => (p.1, perStatOf p)) := by
  induction stats with
  | nil => rfl
  | cons p t ih =>
      obtain ⟨x, hx⟩ := Option.isSome_iff_exists.mp (h p (by simp))
      simp only [finalizePass, finStat, hx]
      rw [ih (fun p' hp' => h p' (by simp [hp']))]
      simp [hx, perStatOf]

theorem finalizePass_err {stats : List (Key × AccStat)}
    (h : ∃ p ∈ stats, p.2.avg_response_time = none) :
    finalizePass stats = .error .typeError := by
  induction stats with
  | nil =>
      obtain ⟨p, hp, _⟩ := h
      cases hp
  | cons p t ih =>
      obtain ⟨p', hp', hnone⟩ := h
      rcases List.mem_cons.mp hp' with he | hm
      · subst he
        simp only [finalizePass, finStat_none hnone]
      · simp only [finalizePass]
        cases hpa : p.2.avg_response_time with
        | none => simp only [finStat_none hpa]
        | some x =>
            simp only [finStat, hpa]
            rw [ih ⟨p', hm, hnone⟩]

theorem genFold_none_case (l : List Record) :
    ∀ stats : List (Key × AccStat),
      ((∃ r ∈ l, r.response_time = none) ∨
       (∃ p ∈ stats, p.2.avg_response_time = none)) →
      genFold stats l = .error .typeError ∨
      ∃ stats', genFold stats l = .ok stats' ∧
        ∃ p ∈ stats', p.2.avg_response_time = none := by
  induction l with
  | nil =>
      intro stats h
      rcases h with h | h
      · obtain ⟨r, hr, _⟩ := h
        cases hr
      · exact Or.inr ⟨stats, rfl, h⟩
  | cons r rs ih =>
      intro stats h
      cases hl : lookupA r.url stats with
      | none =>
          have hstep : genStep stats r =
              .ok (stats ++ [(r.url, ⟨r.url, 1, r.response_time⟩)]) := by
            unfold genStep
            rw [hl]
          have hnext : (∃ r' ∈ rs, r'.response_time = none) ∨
              (∃ p ∈ stats ++ [(r.url, ⟨r.url, 1, r.response_time⟩)],
                p.2.avg_response_time = none) := by
            rcases h with ⟨r', hr', hn⟩ | ⟨p, hp, hn⟩
            · rcases List.mem_cons.mp hr' with he | hm
              · subst he
                right
                exact ⟨(r'.url, ⟨r'.url, 1, r'.response_time⟩), by simp,
                       by simpa using hn⟩
              · exact Or.inl ⟨r', hm, hn⟩
            · right
              exact ⟨p, by simp [hp], hn⟩
          rcases ih _ hnext with herr | ⟨stats', hok, hexists⟩
          · left
            simp only [genFold]
            rw [hstep]
            dsimp only
            exact herr
          · right
            refine ⟨stats', ?_, hexists⟩
            simp only [genFold]
            rw [hstep]
            dsimp only
            exact hok
      | some s =>
          cases hsa : s.avg_response_time with
          | none =>
              left
              simp only [genFold]
              have hstep : genStep stats r = .error .typeError := by
                unfold genStep
                rw [hl]
                dsimp only
                rw [hsa]
              rw [hstep]
          | some x =>
              cases hrt : r.response_time with
              | none =>
                  left
                  simp only [genFold]
                  have hstep : genStep stats r = .error .typeError := by
                    unfold genStep
                    rw [hl]
                    dsimp only
                    rw [hsa, hrt]
                  rw [hstep]
              | some q =>
                  have hstep : genStep stats r =
                      .ok (updateA r.url ⟨s.handler, s.total + 1, some (x + q)⟩ stats) := by
                    unfold genStep
                    rw [hl]
                    dsimp only
                    rw [hsa, hrt]
                  have hnext : (∃ r' ∈ rs, r'.response_time = none) ∨
                      (∃ p ∈ updateA r.url ⟨s.handler, s.total + 1, some (x + q)⟩ stats,
                        p.2.avg_response_time = none) := by
                    rcases h with ⟨r', hr', hn⟩ | ⟨p, hp, hn⟩
                    · rcases List.mem_cons.mp hr' with he | hm
                      · subst he
                        rw [hrt] at hn
                        exact Option.noConfusion hn
                      · exact Or.inl ⟨r', hm, hn⟩
                    · right
                      refine ⟨p, mem_updateA _ hl hp ?_, hn⟩
                      intro he
                      rw [he] at hn
                      dsimp only at hn
                      rw [hsa] at hn
                      exact Option.noConfusion hn
                  rcases ih _ hnext with herr | ⟨stats', hok, hexists⟩
                  · left
                    simp only [genFold]
                    rw [hstep]
                    dsimp only
                    exact herr
                  · right
                    refine ⟨stats', ?_, hexists⟩
                    simp only [genFold]
                    rw [hstep]
                    dsimp only
                    exact hok

/-- Full characterization of a successful aggregation: with every response
time present, `generate` succeeds; its keys are the endpoints in first-seen
order, without duplicates, and each entry carries the record count and the
rounded mean response time of its endpoint. -/
theorem generate_characterization (l : List Record) (hne : l ≠ [])
    (hrt : ∀ r ∈ l, r.response_time.isSome) :
    ∃ rep, AverageReportGenerator.generate l = .ok rep ∧
      rep.map Prod.fst = firstSeenKeys l ∧
      (rep.map Prod.fst).Nodup ∧
      ∀ u ∈ firstSeenKeys l,
        lookupA u rep = some ⟨u, cntUrl l u,
          round3 (sumUrl l u / (cntUrl l u : ℚ))⟩ := by
  obtain ⟨stats', hfold, hinv, hkeys, hlook⟩ :=
    genFold_ok l [] hrt (by intro p hp; cases hp)
  have hkeys' : stats'.map Prod.fst = firstSeenKeys l := by
    rw [hkeys]
    rfl
  refine ⟨stats'.map (fun p => (p.1, perStatOf p)), ?_, ?_, ?_, ?_⟩
  · unfold AverageReportGenerator.generate
    rw [if_neg hne, hfold]
    dsimp only
    exact finalizePass_ok hinv
  · rw [map_fst_map_vals perStatOf, hkeys']
  · rw [map_fst_map_vals perStatOf, hkeys']
    exact foldl_insKey_nodup _ _ List.nodup_nil
  · intro u hu
    rw [lookupA_map_vals perStatOf u stats', hlook u]
    have hcnt : cntUrl l u ≠ 0 := by
      have humem : u ∈ l.map fun r => r.url := by
        have hu2 : u ∈ (l.map fun r => r.url).foldl insKey [] := hu
        have hh := (mem_foldl_insKey (l.map fun r => r.url) [] u).mp hu2
        rcases hh with h | h
        · cases h
        · exact h
      obtain ⟨r, hr, hru⟩ := List.mem_map.mp humem
      have := cntUrl_pos ⟨r, hr, hru⟩
      omega
    rw [show lookupA u ([] : List (Key × AccStat)) = none from rfl]
    dsimp only
    rw [if_neg hcnt]
    simp only [Option.map_some', perStatOf, Option.getD_some]

/-- C2: for a non-empty record sequence in which every record carries `url`
and `response_time`, `generate` returns one entry per distinct url in
first-seen order, with `total` the record count of the url and
`avg_response_time` the arithmetic mean of its response times rounded to 3
decimal places. -/
theorem generate_counts_and_means (l : List Record) (hne : l ≠ [])
    (hurl : ∀ r ∈ l, r.url.isSome) (hrt : ∀ r ∈ l, r.response_time.isSome) :
    ∃ rep, AverageReportGenerator.generate l = .ok rep ∧
      rep.map Prod.fst = firstSeenKeys l ∧
      (rep.map Prod.fst).Nodup ∧
      ∀ u ∈ firstSeenKeys l,
        lookupA u rep = some ⟨u, cntUrl l u,
          round3 (sumUrl l u / (cntUrl l u : ℚ))⟩ :=
  generate_characterization l hne hrt

/-- Witness for C2 at three concrete records over two endpoints. -/
theorem generate_counts_and_means_witness :
    ([wRec1, wRec2, wRec3] ≠ ([] : List Record)) ∧
    (∀ r ∈ [wRec1, wRec2, wRec3], r.url.isSome) ∧
    (∀ r ∈ [wRec1, wRec2, wRec3], r.response_time.isSome) ∧
    (∃ rep, AverageReportGenerator.generate [wRec1, wRec2, wRec3] = .ok rep ∧
      rep.map Prod.fst = firstSeenKeys [wRec1, wRec2, wRec3] ∧
      (rep.map Prod.fst).Nodup ∧
      ∀ u ∈ firstSeenKeys [wRec1, wRec2, wRec3],
        lookupA u rep = some ⟨u, cntUrl [wRec1, wRec2, wRec3] u,
          round3 (sumUrl [wRec1, wRec2, wRec3] u /
            (cntUrl [wRec1, wRec2, wRec3] u : ℚ))⟩) :=
  ⟨by decide, by decide, by decide,
   generate_counts_and_means [wRec1, wRec2, wRec3] (by decide) (by decide)
     (by decide)⟩

/-- C9: records lacking `url` (with numeric response times present) are all
grouped under the single `none` endpoint key, whose statistic has a `none`
handler; such records are counted into the report, not skipped. -/
theorem generate_null_url_grouped (l : List Record) (hne : l ≠ [])
    (hrt : ∀ r ∈ l, r.response_time.isSome)
    (hnull : ∃ r ∈ l, r.url = none) :
    ∃ rep, AverageReportGenerator.generate l = .ok rep ∧
      (rep.map Prod.fst).Nodup ∧
      1 ≤ cntUrl l none ∧
      lookupA none rep = some ⟨none, cntUrl l none,
        round3 (sumUrl l none / (cntUrl l none : ℚ))⟩ := by
  obtain ⟨rep, hgen, hkeys, hnd, hlook⟩ := generate_characterization l hne hrt
  have hmem : (none : Key) ∈ firstSeenKeys l := by
    have : (none : Key) ∈ l.map fun r => r.url := by
      obtain ⟨r, hr, hu⟩ := hnull
      exact List.mem_map.mpr ⟨r, hr, hu⟩
    exact (mem_foldl_insKey (l.map fun r => r.url) [] none).mpr (Or.inr this)
  exact ⟨rep, hgen, hnd, cntUrl_pos hnull, hlook none hmem⟩

/-- Witness for C9: a url-less record and a url-carrying record aggregate
into a report with a `none`-keyed entry counting the url-less record. -/
theorem generate_null_url_grouped_witness :
    ([wNull, wRec1] ≠ ([] : List Record)) ∧
    (∀ r ∈ [wNull, wRec1], r.response_time.isSome) ∧
    (∃ r ∈ [wNull, wRec1], r.url = none) ∧
    (∃ rep, AverageReportGenerator.generate [wNull, wRec1] = .ok rep ∧
      (rep.map Prod.fst).Nodup ∧
      1 ≤ cntUrl [wNull, wRec1] none ∧
      lookupA none rep = some ⟨none, cntUrl [wNull, wRec1] none,
        round3 (sumUrl [wNull, wRec1] none /
          (cntUrl [wNull, wRec1] none : ℚ))⟩) :=
  ⟨by decide, by decide, by decide,
   generate_null_url_grouped [wNull, wRec1] (by decide) (by decide) (by decide)⟩

/-- C10: on a non-empty record sequence containing a record without
`response_time`, `generate` raises `TypeError` (from arithmetic on `None`),
not the InvalidArgument (`ValueError`) kind. -/
theorem generate_missing_rt_typeError (l : List Record) (hne : l ≠ [])
    (hmiss : ∃ r ∈ l, r.response_time = none) :
    AverageReportGenerator.generate l = .error .typeError := by
  unfold AverageReportGenerator.generate
  rw [if_neg hne]
  rcases genFold_none_case l [] (Or.inl hmiss) with herr | ⟨stats', hok, hexists⟩
  · rw [herr]
  · rw [hok]
    dsimp only
    exact finalizePass_err hexists

/-- Witness for C10: a single record lacking `response_time` makes `generate`
fail with `TypeError`. -/
theorem generate_missing_rt_typeError_witness :
    ([wNoRt] ≠ ([] : List Record)) ∧
    (∃ r ∈ [wNoRt], r.response_time = none) ∧
    AverageReportGenerator.generate [wNoRt] = .error .typeError :=
  ⟨by decide, by decide,
   generate_missing_rt_typeError [wNoRt] (by decide) (by decide)⟩

theorem mergeStepOne_lookup_ne {u : Key} {p : Key × PerStat} (hne : u ≠ p.1)
    (acc : List (Key × MAcc)) :
    lookupA u (mergeStepOne acc p) = lookupA u acc := by
  unfold mergeStepOne
  cases hl : lookupA p.1 acc with
  | none =>
      rw [lookupA_append]
      cases lookupA u acc <;> simp [lookupA, hne]
  | some s => exact lookupA_updateA_ne hne _ _

theorem mergeStep_lookup_not_mem {u : Key} (rep : List (Key × PerStat))
    (hu : u ∉ rep.map Prod.fst) :
    ∀ acc, lookupA u (mergeStep acc rep) = lookupA u acc := by
  induction rep with
  | nil => intro acc; rfl
  | cons p t ih =>
      intro acc
      simp only [List.map_cons, List.mem_cons] at hu
      push_neg at hu
      have := ih (by
        intro hm
        exact hu.2 hm)
      rw [mergeStep, List.foldl_cons]
      rw [show List.foldl mergeStepOne (mergeStepOne acc p) t =
            mergeStep (mergeStepOne acc p) t from rfl]
      rw [this (mergeStepOne acc p), mergeStepOne_lookup_ne hu.1 acc]

theorem mergeStep_lookup (rep : List (Key × PerStat))
    (hnd : (rep.map Prod.fst).Nodup) (u : Key) :
    ∀ acc, lookupA u (mergeStep acc rep) =
      match lookupA u acc with
      | some s => some ⟨s.handler, s.total + fileTotal u rep,
                        s.sum_time + fileWeighted u rep⟩
      | none =>
          match lookupA u rep with
          | some d => some ⟨u, d.total, d.avg_response_time * (d.total : ℚ)⟩
          | none => none := by
  induction rep with
  | nil =>
      intro acc
      cases hsu : lookupA u acc with
      | none =>
          rw [show mergeStep acc [] = acc from rfl, hsu]
          rfl
      | some s =>
          simp only [fileTotal, fileWeighted, lookupA]
          rw [Nat.add_zero, add_zero, show mergeStep acc [] = acc from rfl, hsu]
  | cons p t ih =>
      intro acc
      obtain ⟨k, d⟩ := p
      simp only [List.map_cons, List.nodup_cons] at hnd
      rw [mergeStep, List.foldl_cons]
      rw [show List.foldl mergeStepOne (mergeStepOne acc (k, d)) t =
            mergeStep (mergeStepOne acc (k, d)) t from rfl]
      by_cases hu : u = k
      · subst hu
        rw [mergeStep_lookup_not_mem t (fun hm => hnd.1 hm) (mergeStepOne acc (u, d))]
        have hft : fileTotal u ((u, d) :: t) = d.total := by
          simp [fileTotal, lookupA]
        have hfw : fileWeighted u ((u, d) :: t) =
            d.avg_response_time * (d.total : ℚ) := by
          simp [fileWeighted, lookupA]
        have hrep : lookupA u ((u, d) :: t) = some d := by
          rw [lookupA, if_pos rfl]
        rw [hft, hfw, hrep]
        cases hl : lookupA u acc with
        | none =>
            have hstep : mergeStepOne acc (u, d) =
                acc ++ [(u, ⟨u, d.total, d.avg_response_time * (d.total : ℚ)⟩)] := by
              unfold mergeStepOne
              dsimp only
              rw [hl]
            rw [hstep, lookupA_append, hl]
            simp [lookupA]
        | some s =>
            have hstep : mergeStepOne acc (u, d) =
                updateA u ⟨s.handler, s.total + d.total,
                  s.sum_time + d.avg_response_time * (d.total : ℚ)⟩ acc := by
              unfold mergeStepOne
              dsimp only
              rw [hl]
            rw [hstep, lookupA_updateA_self _ hl]
      · rw [ih hnd.2 (mergeStepOne acc (k, d)),
            mergeStepOne_lookup_ne (by simpa using hu) acc]
        have hft : fileTotal u ((k, d) :: t) = fileTotal u t := by
          simp [fileTotal, lookupA, hu]
        have hfw : fileWeighted u ((k, d) :: t) = fileWeighted u t := by
          simp [fileWeighted, lookupA, hu]
        rw [hft, hfw]
        rw [show lookupA u ((k, d) :: t) = lookupA u t from by
          rw [lookupA, if_neg hu]]

theorem foldl_mergeStep_lookup (reports : List (List (Key × PerStat)))
    (hnd : ∀ rep ∈ reports, (rep.map Prod.fst).Nodup) (u : Key) :
    ∀ acc, lookupA u (reports.foldl mergeStep acc) =
      match lookupA u acc with
      | some s => some ⟨s.handler, s.total + specTotal reports u,
                        s.sum_time + specWeighted reports u⟩
      | none =>
          if ∃ rep ∈ reports, u ∈ rep.map Prod.fst then
            some ⟨u, specTotal reports u, specWeighted reports u⟩
          else none := by
  induction reports with
  | nil =>
      intro acc
      cases hsu : lookupA u acc with
      | none =>
          rw [show List.foldl mergeStep acc [] = acc from rfl, hsu]
          rfl
      | some s =>
          rw [show List.foldl mergeStep acc [] = acc from rfl, hsu]
          simp only [specTotal, specWeighted, List.map_nil, List.sum_nil]
          rw [Nat.add_zero, add_zero]
  | cons rep rest ih =>
      intro acc
      rw [List.foldl_cons]
      rw [ih (fun r hr => hnd r (by simp [hr])) (mergeStep acc rep)]
      rw [mergeStep_lookup rep (hnd rep (by simp)) u acc]
      have hst : specTotal (rep :: rest) u = fileTotal u rep + specTotal rest u := by
        simp [specTotal]
      have hsw : specWeighted (rep :: rest) u =
          fileWeighted u rep + specWeighted rest u := by
        simp [specWeighted]
      cases hsu : lookupA u acc with
      | some s =>
          dsimp only
          rw [hst, hsw]
          congr 1
          have h1 : s.total + fileTotal u rep + specTotal rest u =
              s.total + (fileTotal u rep + specTotal rest u) := by omega
          have h2 : s.sum_time + fileWeighted u rep + specWeighted rest u =
              s.sum_time + (fileWeighted u rep + specWeighted rest u) := by ring
          rw [h1, h2]
      | none =>
          cases hur : lookupA u rep with
          | some d =>
              dsimp only
              have humem : u ∈ rep.map Prod.fst := by
                by_contra hno
                rw [← lookupA_eq_none_iff] at hno
                rw [hur] at hno
                exact Option.noConfusion hno
              rw [if_pos ⟨rep, by simp, humem⟩, hst, hsw]
              have hft : fileTotal u rep = d.total := by
                simp [fileTotal, hur]
              have hfw : fileWeighted u rep =
                  d.avg_response_time * (d.total : ℚ) := by
                simp [fileWeighted, hur]
              rw [hft, hfw]
          | none =>
              dsimp only
              have humem : u ∉ rep.map Prod.fst := (lookupA_eq_none_iff _ _).mp hur
              have hft : fileTotal u rep = 0 := by
                simp [fileTotal, hur]
              have hfw : fileWeighted u rep = 0 := by
                simp [fileWeighted, hur]
              rw [hst, hsw, hft, hfw, Nat.zero_add, zero_add]
              by_cases hex : ∃ r ∈ rest, u ∈ r.map Prod.fst
              · rw [if_pos hex, if_pos ?_]
                obtain ⟨r, hr, hm⟩ := hex
                exact ⟨r, by simp [hr], hm⟩
              · rw [if_neg hex, if_neg ?_]
                intro hcon
                obtain ⟨r, hr, hm⟩ := hcon
                rcases List.mem_cons.mp hr with he | hrest
                · subst he
                  exact humem hm
                · exact hex ⟨r, hrest, hm⟩

/-! ### Keys of the combined statistics -/

theorem mergeStepOne_keys (acc : List (Key × MAcc)) (p : Key × PerStat) :
    (mergeStepOne acc p).map Prod.fst = insKey (acc.map Prod.fst) p.1 := by
  unfold mergeStepOne insKey
  cases hl : lookupA p.1 acc with
  | none =>
      rw [if_neg ((lookupA_eq_none_iff _ _).mp hl), List.map_append]
      rfl
  | some s =>
      have hmem : p.1 ∈ acc.map Prod.fst := by
        by_contra hno
        rw [← lookupA_eq_none_iff] at hno
        rw [hl] at hno
        exact Option.noConfusion hno
      rw [if_pos hmem, updateA_map_fst]

theorem insKey_nodup {acc : List Key} (h : acc.Nodup) (k : Key) :
    (insKey acc k).Nodup := by
  unfold insKey
  split_ifs with hm
  · exact h
  · simp [List.nodup_append, h, hm]

theorem mergeStep_keys_nodup (rep : List (Key × PerStat)) :
    ∀ acc : List (Key × MAcc), (acc.map Prod.fst).Nodup →
      ((mergeStep acc rep).map Prod.fst).Nodup := by
  induction rep with
  | nil => intro acc h; exact h
  | cons p t ih =>
      intro acc h
      rw [mergeStep, List.foldl_cons]
      rw [show List.foldl mergeStepOne (mergeStepOne acc p) t =
            mergeStep (mergeStepOne acc p) t from rfl]
      refine ih (mergeStepOne acc p) ?_
      rw [mergeStepOne_keys]
      exact insKey_nodup h _

theorem combinedStats_keys_nodup (reports : List (List (Key × PerStat))) :
    ((combinedStats reports).map Prod.fst).Nodup := by
  have hgen : ∀ acc : List (Key × MAcc), (acc.map Prod.fst).Nodup →
      ((reports.foldl mergeStep acc).map Prod.fst).Nodup := by
    induction reports with
    | nil => intro acc h; exact h
    | cons rep rest ih =>
        intro acc h
        rw [List.foldl_cons]
        exact ih _ (mergeStep_keys_nodup rep acc h)
  exact hgen [] (by simp)

/-! ### The stable descending sort -/

theorem insertByTotal_perm (x : Key × MAcc) (l : List (Key × MAcc)) :
    (insertByTotal x l).Perm (x :: l) := by
  induction l with
  | nil => exact List.Perm.refl _
  | cons y ys ih =>
      unfold insertByTotal
      split_ifs with hlt
      · exact (ih.cons y).trans (List.Perm.swap x y ys)
      · exact List.Perm.refl _

theorem sortByTotalDesc_perm (l : List (Key × MAcc)) :
    (sortByTotalDesc l).Perm l := by
  induction l with
  | nil => exact List.Perm.refl _
  | cons x t ih =>
      rw [sortByTotalDesc, List.foldr_cons]
      exact (insertByTotal_perm x _).trans (ih.cons x)

theorem insertByTotal_pairwise {x : Key × MAcc} {l : List (Key × MAcc)}
    (h : l.Pairwise fun a b => b.2.total ≤ a.2.total) :
    (insertByTotal x l).Pairwise fun a b => b.2.total ≤ a.2.total := by
  induction l with
  | nil => simp [insertByTotal]
  | cons y ys ih =>
      rw [List.pairwise_cons] at h
      unfold insertByTotal
      split_ifs with hlt
      · rw [List.pairwise_cons]
        constructor
        · intro b hb
          have hb' : b = x ∨ b ∈ ys := by
            have := (insertByTotal_perm x ys).mem_iff.mp hb
            simpa using this
          rcases hb' with rfl | hb'
          · exact le_of_lt hlt
          · exact h.1 b hb'
        · exact ih h.2
      · rw [List.pairwise_cons]
        refine ⟨?_, List.pairwise_cons.mpr ⟨h.1, h.2⟩⟩
        intro b hb
        rcases List.mem_cons.mp hb with rfl | hb'
        · exact not_lt.mp hlt
        · exact le_trans (h.1 b hb') (not_lt.mp hlt)

theorem sortByTotalDesc_pairwise (l : List (Key × MAcc)) :
    (sortByTotalDesc l).Pairwise fun a b => b.2.total ≤ a.2.total := by
  induction l with
  | nil => simp [sortByTotalDesc]
  | cons x t ih =>
      rw [sortByTotalDesc, List.foldr_cons]
      exact insertByTotal_pairwise ih

theorem sublist_insertByTotal (x : Key × MAcc) (l : List (Key × MAcc)) :
    l.Sublist (insertByTotal x l) := by
  induction l with
  | nil => exact List.nil_sublist _
  | cons y ys ih =>
      unfold insertByTotal
      split_ifs with hlt
      · exact List.Sublist.cons₂ y ih
      · exact List.sublist_cons_self x (y :: ys)

theorem insertByTotal_pair {a b : Key × MAcc} {l : List (Key × MAcc)}
    (hb : b ∈ l) (hab : b.2.total ≤ a.2.total) :
    [a, b].Sublist (insertByTotal a l) := by
  induction l with
  | nil => cases hb
  | cons y ys ih =>
      unfold insertByTotal
      split_ifs with hlt
      · rcases List.mem_cons.mp hb with rfl | hb'
        · exact absurd hlt (not_lt.mpr hab)
        · exact List.Sublist.cons y (ih hb')
      · exact List.Sublist.cons₂ a (List.singleton_sublist.mpr hb)

theorem sortByTotalDesc_stable {a b : Key × MAcc} (l : List (Key × MAcc))
    (h : [a, b].Sublist l) (hab : b.2.total ≤ a.2.total) :
    [a, b].Sublist (sortByTotalDesc l) := by
  induction l with
  | nil =>
      have := List.sublist_nil.mp h
      exact absurd this (by simp)
  | cons x t ih =>
      rw [sortByTotalDesc, List.foldr_cons]
      cases h with
      | cons c h' =>
          exact (ih h').trans (sublist_insertByTotal x _)
      | cons₂ c h' =>
          have hbt : b ∈ t := List.singleton_sublist.mp h'
          have hbs : b ∈ sortByTotalDesc t :=
            ((sortByTotalDesc_perm t).symm.mem_iff.mp hbt)
          exact insertByTotal_pair hbs hab

/-! ### Positions in lists -/

theorem sublist_pair_get {α : Type} {a b : α} {l : List α}
    (h : [a, b].Sublist l) :
    ∃ i j, ∃ (hi : i < l.length) (hj : j < l.length), i < j ∧
      l.get ⟨i, hi⟩ = a ∧ l.get ⟨j, hj⟩ = b := by
  induction l with
  | nil =>
      have := List.sublist_nil.mp h
      exact absurd this (by simp)
  | cons x t ih =>
      cases h with
      | cons c h' =>
          obtain ⟨i, j, hi, hj, hij, ha, hb⟩ := ih h'
          refine ⟨i + 1, j + 1, ?_, ?_, Nat.succ_lt_succ hij, ?_, ?_⟩
          · simp only [List.length_cons]
            omega
          · simp only [List.length_cons]
            omega
          · rw [List.get_cons_succ]
            exact ha
          · rw [List.get_cons_succ]
            exact hb
      | cons₂ c h' =>
          have hbt : b ∈ t := List.singleton_sublist.mp h'
          obtain ⟨⟨j, hj⟩, hbj⟩ := List.mem_iff_get.mp hbt
          refine ⟨0, j + 1, Nat.succ_pos _, ?_, Nat.succ_pos _, rfl, ?_⟩
          · simp only [List.length_cons]
            omega
          · rw [List.get_cons_succ]
            exact hbj

theorem pair_get_sublist {α : Type} :
    ∀ (l : List α) (i j : ℕ) (hi : i < l.length) (hj : j < l.length),
      i < j → [l.get ⟨i, hi⟩, l.get ⟨j, hj⟩].Sublist l := by
  intro l
  induction l with
  | nil =>
      intro i j hi
      exact absurd hi (by simp)
  | cons x t ih =>
      intro i j hi hj hij
      cases i with
      | zero =>
          cases j with
          | zero => exact absurd hij (lt_irrefl 0)
          | succ j' =>
              rw [List.get_cons_succ]
              exact List.Sublist.cons₂ x
                (List.singleton_sublist.mpr (List.get_mem t j' _))
      | succ i' =>
          cases j with
          | zero => exact absurd hij (by omega)
          | succ j' =>
              rw [List.get_cons_succ, List.get_cons_succ]
              exact List.Sublist.cons x
                (ih i' j' (by simpa using hi) (by simpa using hj) (by omega))

theorem enumerate_length {α : Type} (s : ℕ) (l : List α) :
    (enumerate s l).length = l.length := by
  induction l generalizing s with
  | nil => rfl
  | cons x t ih => simp [enumerate, ih]

theorem enumerate_get {α : Type} :
    ∀ (l : List α) (s i : ℕ) (h : i < l.length),
      (enumerate s l).get ⟨i, by rw [enumerate_length]; exact h⟩ =
        (s + i, l.get ⟨i, h⟩) := by
  intro l
  induction l with
  | nil =>
      intro s i h
      exact absurd h (by simp)
  | cons x t ih =>
      intro s i h
      cases i with
      | zero => simp [enumerate]
      | succ i' =>
          dsimp only [enumerate]
          rw [List.get_cons_succ, List.get_cons_succ]
          rw [ih (s + 1) i' (by simpa using h)]
          congr 1
          omega

theorem map_enumerate_get {α β : Type} (f : ℕ × α → β) (s : ℕ) (l : List α)
    (i : ℕ) (hi : i < l.length) (hi2 : i < ((enumerate s l).map f).length) :
    ((enumerate s l).map f).get ⟨i, hi2⟩ = f (s + i, l.get ⟨i, hi⟩) := by
  have h1 : ((enumerate s l).map f).get ⟨i, hi2⟩ =
      f ((enumerate s l).get ⟨i, by rw [enumerate_length]; exact hi⟩) := by
    simp [List.get_eq_getElem, List.getElem_map]
  rw [h1, enumerate_get l s i hi]

theorem enumFst (s : ℕ) (l : List (Key × MAcc)) :
    (((enumerate s l).map fun p =>
        (p.2.1, (⟨p.1, p.2.2.handler, p.2.2.total,
          round3 (p.2.2.sum_time / (p.2.2.total : ℚ))⟩ : FinalStat))).map Prod.fst)
      = l.map Prod.fst := by
  induction l generalizing s with
  | nil => rfl
  | cons x t ih =>
      dsimp only [enumerate, List.map_cons]
      rw [ih]

theorem mem_mergeStat_entries {u : Key} {m : MAcc} :
    ∀ (s : ℕ) (l : List (Key × MAcc)), (u, m) ∈ l →
      ∃ i, (u, (⟨i, m.handler, m.total,
        round3 (m.sum_time / (m.total : ℚ))⟩ : FinalStat)) ∈
        (enumerate s l).map fun p =>
          (p.2.1, (⟨p.1, p.2.2.handler, p.2.2.total,
            round3 (p.2.2.sum_time / (p.2.2.total : ℚ))⟩ : FinalStat)) := by
  intro s l
  induction l generalizing s with
  | nil => intro h; cases h
  | cons x t ih =>
      intro h
      rcases List.mem_cons.mp h with he | hm
      · refine ⟨s, ?_⟩
        dsimp only [enumerate, List.map_cons]
        rw [← he]
        exact List.mem_cons.mpr (Or.inl rfl)
      · obtain ⟨i, hi⟩ := ih (s + 1) hm
        refine ⟨i, ?_⟩
        dsimp only [enumerate, List.map_cons]
        exact List.mem_cons.mpr (Or.inr hi)

theorem mergeStatistics_length (reports : List (List (Key × PerStat))) :
    (ReportEngine.mergeStatistics reports).length =
      (sortByTotalDesc (combinedStats reports)).length := by
  unfold ReportEngine.mergeStatistics
  rw [List.length_map, enumerate_length]

theorem mergeStatistics_map_fst (reports : List (List (Key × PerStat))) :
    (ReportEngine.mergeStatistics reports).map Prod.fst =
      (sortByTotalDesc (combinedStats reports)).map Prod.fst := by
  unfold ReportEngine.mergeStatistics
  exact enumFst 0 _

theorem mergeStatistics_get (reports : List (List (Key × PerStat))) (i : ℕ)
    (hi : i < (ReportEngine.mergeStatistics reports).length)
    (hs : i < (sortByTotalDesc (combinedStats reports)).length) :
    (ReportEngine.mergeStatistics reports).get ⟨i, hi⟩ =
      (((sortByTotalDesc (combinedStats reports)).get ⟨i, hs⟩).1,
       ⟨i, ((sortByTotalDesc (combinedStats reports)).get ⟨i, hs⟩).2.handler,
           ((sortByTotalDesc (combinedStats reports)).get ⟨i, hs⟩).2.total,
           round3 (((sortByTotalDesc (combinedStats reports)).get ⟨i, hs⟩).2.sum_time /
             (((sortByTotalDesc (combinedStats reports)).get ⟨i, hs⟩).2.total : ℚ))⟩) := by
  have h2 : (ReportEngine.mergeStatistics reports).get ⟨i, hi⟩ =
      (fun p : ℕ × (Key × MAcc) => (p.2.1, (⟨p.1, p.2.2.handler, p.2.2.total,
        round3 (p.2.2.sum_time / (p.2.2.total : ℚ))⟩ : FinalStat)))
      (0 + i, (sortByTotalDesc (combinedStats reports)).get ⟨i, hs⟩) :=
    map_enumerate_get _ 0 _ i hs hi
  rw [h2]
  dsimp only
  rw [Nat.zero_add]

/-- C1: for every non-empty sequence of per-file statistics mappings and
every endpoint appearing in one of them, the merged report's entry for that
endpoint carries the sum of the per-file totals and the weighted mean
`round3(Σ avg_i·total_i / Σ total_i)`. -/
theorem merged_total_and_weighted_mean (reports : List (List (Key × PerStat)))
    (u : Key) (hne : reports ≠ [])
    (hnd : ∀ rep ∈ reports, (rep.map Prod.fst).Nodup)
    (htot : ∀ rep ∈ reports, ∀ p ∈ rep, 1 ≤ p.2.total)
    (hu : ∃ rep ∈ reports, u ∈ rep.map Prod.fst) :
    ∃ e : FinalStat,
      lookupA u (ReportEngine.mergeStatistics reports) = some e ∧
      e.total = specTotal reports u ∧
      e.avg_response_time =
        round3 (specWeighted reports u / (specTotal reports u : ℚ)) := by
  have hcomb : lookupA u (combinedStats reports) =
      some ⟨u, specTotal reports u, specWeighted reports u⟩ := by
    have h := foldl_mergeStep_lookup reports hnd u []
    rw [show lookupA u ([] : List (Key × MAcc)) = none from rfl] at h
    dsimp only at h
    rw [if_pos hu] at h
    exact h
  have hmem : (u, (⟨u, specTotal reports u, specWeighted reports u⟩ : MAcc)) ∈
      combinedStats reports := lookupA_mem hcomb
  have hmems : (u, (⟨u, specTotal reports u, specWeighted reports u⟩ : MAcc)) ∈
      sortByTotalDesc (combinedStats reports) :=
    (sortByTotalDesc_perm _).mem_iff.mpr hmem
  obtain ⟨i, hi⟩ := mem_mergeStat_entries 0 _ hmems
  have hi2 : (u, (⟨i, u, specTotal reports u,
      round3 (specWeighted reports u / (specTotal reports u : ℚ))⟩ : FinalStat)) ∈
      ReportEngine.mergeStatistics reports := hi
  have hkeysnd : ((ReportEngine.mergeStatistics reports).map Prod.fst).Nodup := by
    rw [mergeStatistics_map_fst]
    have hperm := (sortByTotalDesc_perm (combinedStats reports)).map Prod.fst
    exact hperm.symm.nodup (combinedStats_keys_nodup reports)
  exact ⟨_, mem_lookupA hkeysnd hi2, rfl, rfl⟩

/-- Witness for C1 at the two-file scenario of the specification: endpoint
`/a` has totals 2 and 1 with per-file averages 150 and 300. -/
theorem merged_total_and_weighted_mean_witness :
    ([wRepA, wRepB] ≠ ([] : List (List (Key × PerStat)))) ∧
    (∀ rep ∈ [wRepA, wRepB], (rep.map Prod.fst).Nodup) ∧
    (∀ rep ∈ [wRepA, wRepB], ∀ p ∈ rep, 1 ≤ p.2.total) ∧
    (∃ rep ∈ [wRepA, wRepB], wKeyA ∈ rep.map Prod.fst) ∧
    (∃ e : FinalStat,
      lookupA wKeyA (ReportEngine.mergeStatistics [wRepA, wRepB]) = some e ∧
      e.total = specTotal [wRepA, wRepB] wKeyA ∧
      e.avg_response_time = round3 (specWeighted [wRepA, wRepB] wKeyA /
        (specTotal [wRepA, wRepB] wKeyA : ℚ))) :=
  ⟨by decide, by decide, by decide, by decide,
   merged_total_and_weighted_mean [wRepA, wRepB] wKeyA (by decide) (by decide)
     (by decide) (by decide)⟩

/-- C3: in every merged report, `idx` values are the positions 0,1,2,… in
order, `total` is non-increasing along the report, and two entries with equal
`total` appear in the order in which their endpoints occur in the combined
fold (first-encounter order). -/
theorem mergeStatistics_ranking (reports : List (List (Key × PerStat))) :
    (∀ i (hi : i < (ReportEngine.mergeStatistics reports).length),
      ((ReportEngine.mergeStatistics reports).get ⟨i, hi⟩).2.idx = i) ∧
    (∀ i j (hi : i < (ReportEngine.mergeStatistics reports).length)
        (hj : j < (ReportEngine.mergeStatistics reports).length), i ≤ j →
      ((ReportEngine.mergeStatistics reports).get ⟨j, hj⟩).2.total ≤
        ((ReportEngine.mergeStatistics reports).get ⟨i, hi⟩).2.total) ∧
    (∀ i j (hi : i < (ReportEngine.mergeStatistics reports).length)
        (hj : j < (ReportEngine.mergeStatistics reports).length), i < j →
      ((ReportEngine.mergeStatistics reports).get ⟨i, hi⟩).2.total =
        ((ReportEngine.mergeStatistics reports).get ⟨j, hj⟩).2.total →
      ∃ p q, ∃ (hp : p < (combinedStats reports).length)
        (hq : q < (combinedStats reports).length), p < q ∧
        ((combinedStats reports).get ⟨p, hp⟩).1 =
          ((ReportEngine.mergeStatistics reports).get ⟨i, hi⟩).1 ∧
        ((combinedStats reports).get ⟨q, hq⟩).1 =
          ((ReportEngine.mergeStatistics reports).get ⟨j, hj⟩).1) := by
  have hsortnd : (sortByTotalDesc (combinedStats reports)).Nodup :=
    (sortByTotalDesc_perm _).symm.nodup
      (List.Nodup.of_map Prod.fst (combinedStats_keys_nodup reports))
  refine ⟨?_, ?_, ?_⟩
  · intro i hi
    have hs : i < (sortByTotalDesc (combinedStats reports)).length := by
      rw [← mergeStatistics_length reports]
      exact hi
    rw [mergeStatistics_get reports i hi hs]
  · intro i j hi hj hij
    have hsi : i < (sortByTotalDesc (combinedStats reports)).length := by
      rw [← mergeStatistics_length reports]
      exact hi
    have hsj : j < (sortByTotalDesc (combinedStats reports)).length := by
      rw [← mergeStatistics_length reports]
      exact hj
    rw [mergeStatistics_get reports i hi hsi, mergeStatistics_get reports j hj hsj]
    dsimp only
    rcases Nat.lt_or_ge i j with hlt | hge
    · exact List.pairwise_iff_get.mp (sortByTotalDesc_pairwise _)
        ⟨i, hsi⟩ ⟨j, hsj⟩ hlt
    · have : i = j := by omega
      subst this
      exact le_refl _
  · intro i j hi hj hij heq
    have hsi : i < (sortByTotalDesc (combinedStats reports)).length := by
      rw [← mergeStatistics_length reports]
      exact hi
    have hsj : j < (sortByTotalDesc (combinedStats reports)).length := by
      rw [← mergeStatistics_length reports]
      exact hj
    rw [mergeStatistics_get reports i hi hsi, mergeStatistics_get reports j hj hsj]
    rw [mergeStatistics_get reports i hi hsi, mergeStatistics_get reports j hj hsj] at heq
    dsimp only at heq ⊢
    have hab : ((sortByTotalDesc (combinedStats reports)).get ⟨i, hsi⟩).2.total =
        ((sortByTotalDesc (combinedStats reports)).get ⟨j, hsj⟩).2.total := heq
    have hma : (sortByTotalDesc (combinedStats reports)).get ⟨i, hsi⟩ ∈
        combinedStats reports :=
      (sortByTotalDesc_perm _).mem_iff.mp (List.get_mem _ _ _)
    have hmb : (sortByTotalDesc (combinedStats reports)).get ⟨j, hsj⟩ ∈
        combinedStats reports :=
      (sortByTotalDesc_perm _).mem_iff.mp (List.get_mem _ _ _)
    obtain ⟨⟨p, hp⟩, hpa⟩ := List.mem_iff_get.mp hma
    obtain ⟨⟨q, hq⟩, hqb⟩ := List.mem_iff_get.mp hmb
    have hne2 : (sortByTotalDesc (combinedStats reports)).get ⟨i, hsi⟩ ≠
        (sortByTotalDesc (combinedStats reports)).get ⟨j, hsj⟩ := by
      intro hcon
      have := (hsortnd.get_inj_iff.mp hcon)
      have : i = j := congrArg Fin.val this
      omega
    have hpq : p ≠ q := by
      intro hcon
      subst hcon
      exact hne2 (hpa.symm.trans hqb)
    rcases Nat.lt_or_ge p q with hplt | hpge
    · exact ⟨p, q, hp, hq, hplt, by rw [hpa], by rw [hqb]⟩
    · have hqp : q < p := by omega
      have hsub : [(combinedStats reports).get ⟨q, hq⟩,
          (combinedStats reports).get ⟨p, hp⟩].Sublist (combinedStats reports) :=
        pair_get_sublist (combinedStats reports) q p hq hp hqp
      rw [hpa, hqb] at hsub
      have hstab := sortByTotalDesc_stable (combinedStats reports) hsub
        (le_of_eq hab)
      obtain ⟨p', q', hp', hq', hp'q', hpa', hqb'⟩ := sublist_pair_get hstab
      have hq'i : q' = i := by
        have := hsortnd.get_inj_iff.mp
          (hqb'.trans ((rfl : (sortByTotalDesc (combinedStats reports)).get ⟨i, hsi⟩ =
            (sortByTotalDesc (combinedStats reports)).get ⟨i, hsi⟩)).symm)
        exact congrArg Fin.val this
      have hp'j : p' = j := by
        have := hsortnd.get_inj_iff.mp hpa'
        exact congrArg Fin.val this
      omega

/-- Witness for C3 at a one-file report with two equal-`total` endpoints:
`idx` starts at 0, totals are non-increasing, and the tie keeps
first-encounter order. -/
theorem mergeStatistics_ranking_witness :
    ((ReportEngine.mergeStatistics [wRepC]).get ⟨0, by decide⟩).2.idx = 0 ∧
    ((ReportEngine.mergeStatistics [wRepC]).get ⟨1, by decide⟩).2.total ≤
      ((ReportEngine.mergeStatistics [wRepC]).get ⟨0, by decide⟩).2.total ∧
    (∃ p q, ∃ (hp : p < (combinedStats [wRepC]).length)
        (hq : q < (combinedStats [wRepC]).length), p < q ∧
      ((combinedStats [wRepC]).get ⟨p, hp⟩).1 =
        ((ReportEngine.mergeStatistics [wRepC]).get ⟨0, by decide⟩).1 ∧
      ((combinedStats [wRepC]).get ⟨q, hq⟩).1 =
        ((ReportEngine.mergeStatistics [wRepC]).get ⟨1, by decide⟩).1) :=
  ⟨(mergeStatistics_ranking [wRepC]).1 0 (by decide),
   (mergeStatistics_ranking [wRepC]).2.1 0 1 (by decide) (by decide) (by decide),
   (mergeStatistics_ranking [wRepC]).2.2 0 1 (by decide) (by decide) (by decide)
     (by decide)⟩
